import Mathlib

/-!
Verification of the Portfolio-manager core against its code.

This file gives a shallow embedding, in Lean 4, of the coordination and
aggregation core of the repository:

* the numeric normalizer of data_fetcher.py (static methods
  normalize_number and normalize_percent, lines 343-376),
* the memoizing quote / weekly-performance caches of data_fetcher.py
  (get_stock_info lines 104-185, get_weekly_performance lines 249-276),
* the market-movers cache of data_fetcher.py
  (should_use_cached_market_movers lines 309-314, get_market_movers
  lines 378-418),
* the market-overview aggregator of portfolio_calculator.py
  (get_market_overview lines 205-383 with its inner helpers upsert,
  sort_bucket, merge_unique and the watchlist backfill),
* the regeneration coordinator of fastapi_app.py (should_regenerate
  lines 92-101, maybe_generate lines 113-134, process_portfolio
  lines 256-332).

Conventions of the embedding:

* Python floats are modelled as rationals (Rat); non-finite values (nan,
  inf) are outside the model.  Machine timestamps are modelled as Int
  (seconds); a timedelta comparison becomes an Int comparison.
* A Python value that may be None is an Option; a dict field that may be
  missing is likewise an Option (the code at hand never distinguishes a
  missing key from a key holding None when reading fields).
* Raised exceptions are modelled with Except; a function that cannot
  raise keeps a plain return type.
* Network and pandas effects (yfinance calls, scraping, sleeps) are
  modelled as oracle arguments: the embedding receives the data a fetch
  would produce and is otherwise a faithful translation of the control
  flow run single-threaded.
-/

namespace PM

/-- A dynamically typed Python value as it reaches the numeric
normalizer: None, an int or float (as a rational), a string, or any
other object. -/
inductive PyVal where
  | vNone
  | vNum (q : Rat)
  | vStr (s : String)
  | vOther
deriving DecidableEq

/-- The one exception class the normalizer model can raise:
an IndexError from indexing into an empty string. -/
inductive PyExn where
  | indexError
deriving DecidableEq

/-- Numeric value of a list of decimal digit characters. -/
def digitsVal (ds : List Char) : Nat :=
  ds.foldl (fun a c => a * 10 + (c.toNat - 48)) 0

/-- Parse the mantissa part of a Python float literal: digits with an
optional decimal point.  Returns the value and the unconsumed rest.
Forms accepted, as by the CPython float parser: "12", "12.", "12.5",
".5". -/
def parseMantissa (cs : List Char) : Option (Rat × List Char) :=
  let intDigits := cs.takeWhile Char.isDigit
  let rest := cs.dropWhile Char.isDigit
  match rest with
  | '.' :: r2 =>
    let fracDigits := r2.takeWhile Char.isDigit
    let r3 := r2.dropWhile Char.isDigit
    if intDigits = [] ∧ fracDigits = [] then none
    else some (mkRat (digitsVal intDigits * 10 ^ fracDigits.length + digitsVal fracDigits)
                     (10 ^ fracDigits.length), r3)
  | _ =>
    if intDigits = [] then none else some ((digitsVal intDigits : Rat), rest)

/-- Apply an optional exponent suffix to a parsed mantissa; the whole
rest of the input must be consumed by it. -/
def parseExpPart (base : Rat) (cs : List Char) : Option Rat :=
  match cs with
  | [] => some base
  | c :: rest =>
    if c = 'e' ∨ c = 'E' then
      match rest with
      | '+' :: ds =>
        if ds ≠ [] ∧ ds.all Char.isDigit then some (base * (10 : Rat) ^ digitsVal ds) else none
      | '-' :: ds =>
        if ds ≠ [] ∧ ds.all Char.isDigit then some (base / (10 : Rat) ^ digitsVal ds) else none
      | ds =>
        if ds ≠ [] ∧ ds.all Char.isDigit then some (base * (10 : Rat) ^ digitsVal ds) else none
    else none

/-- Strip leading and trailing whitespace, as float() does. -/
def stripWs (cs : List Char) : List Char :=
  ((cs.dropWhile Char.isWhitespace).reverse.dropWhile Char.isWhitespace).reverse

/-- Model of the CPython float(str) constructor on a list of characters:
optional surrounding whitespace, optional sign, decimal mantissa,
optional exponent.  Returns none where CPython raises ValueError.
Non-finite literals (inf, nan) and underscore separators are outside
the model. -/
def pyFloatChars (cs : List Char) : Option Rat :=
  match stripWs cs with
  | '+' :: rest =>
    match parseMantissa rest with
    | some (m, r) => parseExpPart m r
    | none => none
  | '-' :: rest =>
    match parseMantissa rest with
    | some (m, r) => (parseExpPart m r).map Neg.neg
    | none => none
  | rest =>
    match parseMantissa rest with
    | some (m, r) => parseExpPart m r
    | none => none

/-- value.replace(",", "") on a string, as a character list. -/
def stripCommas (s : String) : List Char :=
  s.toList.filter (fun c => c ≠ ',')

/-- The multipliers dict of normalize_number:
T 1e12, B 1e9, M 1e6, K 1e3. -/
def suffixMultiplier (c : Char) : Option Rat :=
  if c = 'T' then some 1000000000000
  else if c = 'B' then some 1000000000
  else if c = 'M' then some 1000000
  else if c = 'K' then some 1000
  else none

/-- Embedding of DataFetcher normalize_number (data_fetcher.py lines
356-376).  The source indexes cleaned[-1] before any guard on
emptiness, so a string that is empty after comma removal raises an
IndexError; every other path returns a value or None. -/
def normalize_number (v : PyVal) : Except PyExn (Option Rat) :=
  match v with
  | .vNone => .ok none
  | .vNum q => .ok (some q)
  | .vStr s =>
    if s = "--" then .ok none
    else
      let cleaned := stripCommas s
      match cleaned.getLast? with
      | none => .error .indexError
      | some suffix =>
        match suffixMultiplier suffix with
        | some m =>
          match pyFloatChars cleaned.dropLast with
          | some q => .ok (some (q * m))
          | none => .ok none
        | none =>
          match pyFloatChars cleaned with
          | some q => .ok (some q)
          | none => .ok none
  | .vOther => .ok none

/-- Match of the regex fragment digits-then-optional-fraction at the
head of the input; the fractional part is taken only when at least one
digit follows the dot, as in the pattern used by normalize_percent. -/
def digitsMatch (cs : List Char) : Option (List Char) :=
  let ds := cs.takeWhile Char.isDigit
  if ds = [] then none
  else
    match cs.dropWhile Char.isDigit with
    | '.' :: r2 =>
      let fs := r2.takeWhile Char.isDigit
      if fs = [] then some ds else some (ds ++ '.' :: fs)
    | _ => some ds

/-- Leftmost match of the regex used by normalize_percent: an optional
minus sign, digits, an optional fractional part.  Greedy at the first
position where a match starts, as re.search does. -/
def numSearch : List Char → Option (List Char)
  | [] => none
  | c :: rest =>
    match (if c = '-' then (digitsMatch rest).map (fun m => '-' :: m)
           else digitsMatch (c :: rest)) with
    | some m => some m
    | none => numSearch rest

/-- Embedding of DataFetcher normalize_percent (data_fetcher.py lines
343-354): numbers pass through, strings are searched (after comma
removal) for the first signed decimal number, anything else is None. -/
def normalize_percent (v : PyVal) : Option Rat :=
  match v with
  | .vNum q => some q
  | .vStr s =>
    match numSearch (stripCommas s) with
    | some m =>
      match pyFloatChars m with
      | some q => some q
      | none => none
    | none => none
  | .vNone => none
  | .vOther => none

/-! ## Quote and weekly-performance caches (data_fetcher.py) -/

/-- Model of str.upper() for the ASCII range (symbols are tickers);
non-ASCII case mapping is outside the model. -/
def pyUpperChar (c : Char) : Char :=
  if c.toNat ≥ 97 ∧ c.toNat ≤ 122 then Char.ofNat (c.toNat - 32) else c

/-- str.upper() on a whole string. -/
def pyUpper (s : String) : String := String.mk (s.toList.map pyUpperChar)

/-- The result dict built and cached by get_stock_info (data_fetcher.py
lines 156-166 and the fallback at 173-183). -/
structure StockInfo where
  symbol : String
  name : String
  current_price : Option Rat
  change_percent : Option Rat
  market_cap : Option Rat
  volume : Option Rat
  logo_url : Option String
  exchange : Option String
  currency : String
deriving DecidableEq

/-- Oracle for everything get_stock_info computes between the cache
check and the cache write: the yfinance info dict, logo resolution and
the derived price and change fields (or the exception-path fallback
values).  The symbol field of the stored dict always comes from the
argument, so it is not part of the oracle. -/
structure StockFetch where
  name : String
  current_price : Option Rat
  change_percent : Option Rat
  market_cap : Option Rat
  volume : Option Rat
  logo_url : Option String
  exchange : Option String
  currency : String
deriving DecidableEq

/-- The dict get_stock_info assembles from a fetch for a given symbol. -/
def stockInfoOfFetch (symbol : String) (f : StockFetch) : StockInfo :=
  ⟨symbol, f.name, f.current_price, f.change_percent, f.market_cap, f.volume,
   f.logo_url, f.exchange, f.currency⟩

/-- The cache key of get_stock_info (data_fetcher.py line 106): the
symbol verbatim, not upper-cased. -/
def stock_info_cache_key (symbol : String) : String := "stock_info_" ++ symbol

/-- Outcome of one get_stock_info call: the returned dict, the cache
afterwards, and whether a fresh upstream fetch happened. -/
structure InfoCall where
  result : StockInfo
  cache : List (String × StockInfo)
  fetched : Bool
deriving DecidableEq

/-- Embedding of DataFetcher.get_stock_info (data_fetcher.py lines
104-185).  The cache is an insert-ordered map from key strings to the
stored dicts; a hit requires the stored dict to carry the same symbol,
as the source double-checks cached.get("symbol") == symbol. -/
def get_stock_info (cache : List (String × StockInfo)) (symbol : String)
    (fetch : StockFetch) : InfoCall :=
  let fresh := stockInfoOfFetch symbol fetch
  match cache.lookup (stock_info_cache_key symbol) with
  | some cached =>
    if cached.symbol = symbol then ⟨cached, cache, false⟩
    else ⟨fresh, (stock_info_cache_key symbol, fresh) :: cache, true⟩
  | none => ⟨fresh, (stock_info_cache_key symbol, fresh) :: cache, true⟩

/-- The cache key of get_weekly_performance (data_fetcher.py line 259):
"weekly:" plus the upper-cased symbol. -/
def weekly_cache_key (symbol : String) : String := "weekly:" ++ pyUpper symbol

/-- Outcome of one get_weekly_performance call. -/
structure WeeklyCall where
  result : Option (List Rat)
  cache : List (String × List Rat)
  fetched : Bool
deriving DecidableEq

/-- Embedding of DataFetcher.get_weekly_performance (data_fetcher.py
lines 249-276).  The fetch oracle is the Close column of the one-month
history, none when the fetch fails or the frame is empty; tail(7)
becomes dropping all but the last seven entries.  Note that a failed
fetch is not cached. -/
def get_weekly_performance (cache : List (String × List Rat)) (symbol : String)
    (fetch : Option (List Rat)) : WeeklyCall :=
  match cache.lookup (weekly_cache_key symbol) with
  | some v => ⟨some v, cache, false⟩
  | none =>
    match fetch with
    | none => ⟨none, cache, true⟩
    | some closes =>
      let last7 := closes.drop (closes.length - 7)
      ⟨some last7, (weekly_cache_key symbol, last7) :: cache, true⟩

/-! ## Movers cache (data_fetcher.py) -/

/-- A pandas table modelled column-wise: column label to cells. -/
structure PTable where
  cols : List (String × List PyVal)
deriving DecidableEq

/-- The MARKET_MOVER_COLUMNS renaming dict (data_fetcher.py lines
289-299). -/
def MARKET_MOVER_COLUMNS : List (String × String) :=
  [("Symbol", "symbol"), ("Name", "name"), ("Price (Intraday)", "price"),
   ("Change", "change"), ("% Change", "percent_change"), ("Volume", "volume"),
   ("Avg Vol (3 month)", "avg_volume"), ("Avg Vol (3 months)", "avg_volume"),
   ("Market Cap", "market_cap")]

/-- Column rename with fallback to the original label. -/
def renameColumn (c : String) : String :=
  match MARKET_MOVER_COLUMNS.lookup c with
  | some r => r
  | none => c

/-- table.rename(columns=...) over the whole table. -/
def renameTable (t : PTable) : PTable :=
  ⟨t.cols.map (fun kv => (renameColumn kv.1, kv.2))⟩

/-- Membership test for a column label. -/
def tableHasCol (t : PTable) (c : String) : Bool :=
  t.cols.any (fun kv => kv.1 = c)

/-- One cell through normalize_number, kept as a PyVal column cell. -/
def normNumCell (v : PyVal) : Except PyExn PyVal :=
  (normalize_number v).map (fun r => match r with | some q => .vNum q | none => .vNone)

/-- One cell through normalize_percent. -/
def normPctCell (v : PyVal) : PyVal :=
  match normalize_percent v with
  | some q => .vNum q
  | none => .vNone

/-- Apply normalize_percent to a column when present. -/
def applyColPct (t : PTable) (c : String) : PTable :=
  ⟨t.cols.map (fun kv => if kv.1 = c then (kv.1, kv.2.map normPctCell) else kv)⟩

/-- Apply normalize_number to a column when present; an IndexError from
a cell propagates, as the source applies the normalizer unguarded. -/
def applyColNum (t : PTable) (c : String) : Except PyExn PTable := do
  let cols ← t.cols.mapM (fun kv =>
    if kv.1 = c then do
      let cells ← kv.2.mapM normNumCell
      pure (kv.1, cells)
    else pure kv)
  pure ⟨cols⟩

/-- The column-normalization block of get_market_movers
(data_fetcher.py lines 402-414), in source order. -/
def normalizeMoverTable (t : PTable) : Except PyExn PTable := do
  let t1 := applyColPct t "percent_change"
  let t2 ← applyColNum t1 "change"
  let t3 ← applyColNum t2 "price"
  let t4 ← applyColNum t3 "volume"
  let t5 ← applyColNum t4 "avg_volume"
  let t6 ← applyColNum t5 "market_cap"
  pure t6

/-- The movers cache state: per-category tables plus the one shared
timestamp (data_fetcher.py lines 31-32). -/
structure MoversState where
  cache : List (String × PTable)
  cacheTime : Option Int
deriving DecidableEq

/-- The 15-minute TTL of the movers cache, in seconds. -/
def MOVERS_TTL : Int := 15 * 60

/-- Embedding of _should_use_cached_market_movers (data_fetcher.py
lines 309-314): fresh iff the single shared timestamp exists and is
younger than the TTL. -/
def should_use_cached_market_movers (now : Int) (st : MoversState) : Bool :=
  match st.cacheTime with
  | none => false
  | some t => decide (now - t < MOVERS_TTL)

/-- Outcome of one get_market_movers call. -/
structure MoversCall where
  result : Option PTable
  state : MoversState
  usedCache : Bool
deriving DecidableEq

/-- Embedding of DataFetcher.get_market_movers (data_fetcher.py lines
378-418).  The fetched oracle stands for _fetch_market_movers_from_web:
none covers an unknown category, an HTTP or parse failure, and an empty
table list.  On a usable fetch the table is renamed, rejected when no
symbol column remains, normalized, stored, and the shared timestamp is
set to now.  The pre-fetch pacing sleep has no observable state. -/
def get_market_movers (st : MoversState) (mover_type : String) (now : Int)
    (fetched : Option PTable) : Except PyExn MoversCall :=
  if should_use_cached_market_movers now st ∧ (st.cache.lookup mover_type).isSome then
    .ok ⟨st.cache.lookup mover_type, st, true⟩
  else
    match fetched with
    | none => .ok ⟨none, st, false⟩
    | some raw =>
      let t := renameTable raw
      if tableHasCol t "symbol" then
        match normalizeMoverTable t with
        | .ok t2 => .ok ⟨some t2, ⟨(mover_type, t2) :: st.cache, some now⟩, false⟩
        | .error ex => .error ex
      else .ok ⟨none, st, false⟩

/-! ## Regeneration coordinator (fastapi_app.py) -/

/-- PORTFOLIO_MANAGER_DEFAULT_PERIOD with its default value. -/
def DEFAULT_PERIOD : String := "6mo"

/-- REFRESH_INTERVAL = timedelta(minutes=15), in seconds. -/
def REFRESH_INTERVAL : Int := 15 * 60

/-- last_generation_state (fastapi_app.py lines 38-42): the parsed
last-success timestamp, the last period, and the in-progress flag. -/
structure GenState where
  timestamp : Option Int
  period : Option String
  in_progress : Bool
deriving DecidableEq

/-- Embedding of _should_regenerate (fastapi_app.py lines 92-101).
The source guards the period comparison with Python truthiness, so a
missing or empty last period falls through to the elapsed-time check. -/
def should_regenerate (now : Int) (s : GenState) (requested_period : String) : Bool :=
  if s.in_progress then false
  else
    match s.timestamp with
    | none => true
    | some last_dt =>
      match s.period with
      | some last_period =>
        if last_period ≠ "" ∧ last_period ≠ requested_period then true
        else decide (now - last_dt > REFRESH_INTERVAL)
      | none => decide (now - last_dt > REFRESH_INTERVAL)

/-- The report dict as the coordinator sees it: only its generated_at
timestamp matters, already parsed; none covers a missing or
unparseable field (and a non-dict report). -/
structure Report where
  generated_at : Option Int
deriving DecidableEq

/-- Outcome of one maybe_generate call: the returned value or the
surfaced builder exception, the coordinator state afterwards, and
whether the report builder ran. -/
structure MaybeGenerateResult (E : Type) where
  result : Except E (Option Report)
  state : GenState
  builder_invoked : Bool

/-- Embedding of maybe_generate (fastapi_app.py lines 113-134), run
single-threaded: the async lock is acquired immediately and the only
thing that can differ between the two staleness checks is the clock
(now_outer outside the lock, now_inner inside).  The builder oracle is
generate_full_report; on success the state records the parsed report
timestamp (or the current time) and the period; the finally block
clears in_progress on both paths. -/
def maybe_generate (s : GenState) (period : String) (force : Bool) (market_open : Bool)
    (now_outer now_inner : Int) (builder : Except E Report) : MaybeGenerateResult E :=
  if !force && !market_open then ⟨.ok none, s, false⟩
  else if !force && !should_regenerate now_outer s period then ⟨.ok none, s, false⟩
  else if !force && !should_regenerate now_inner s period then ⟨.ok none, s, false⟩
  else
    match builder with
    | .ok report =>
      ⟨.ok (some report), ⟨some (report.generated_at.getD now_inner), some period, false⟩, true⟩
    | .error e => ⟨.error e, ⟨s.timestamp, s.period, false⟩, true⟩

/-- The persisted report as _load_report_from_disk sees it: the parsed
generated_at (none when missing or unparseable) and the stored period.
A missing or falsy persisted payload is the none case at the call
sites. -/
structure DiskData where
  generated_at : Option Int
  period : Option String
deriving DecidableEq

/-- The state update performed by _load_report_from_disk when data
exists (fastapi_app.py lines 83-89): overwrite timestamp and period
from the persisted payload. -/
def load_state (s : GenState) (d : DiskData) : GenState :=
  { s with timestamp := d.generated_at, period := d.period }

/-- The distinct successful responses of the process endpoint. -/
inductive ProcResponse where
  | cachedBusy (d : DiskData)
  | cachedRecent (d : DiskData)
  | skippedClosed
  | cachedRecentLocked (d : DiskData)
  | generated (r : Report)
deriving DecidableEq

/-- Outcome of one process_portfolio call; an error is the HTTP 500
raised from the builder exception. -/
structure ProcessResult (E : Type) where
  result : Except (Nat × E) ProcResponse
  state : GenState
  builder_invoked : Bool

/-- Python x or y for an optional string (used for request.period). -/
def pyOrStr (a : Option String) (b : String) : String :=
  match a with
  | some s => if s = "" then b else s
  | none => b

/-- Python x or y for an optional list (used for request.symbols). -/
def pyOrList (a : Option (List String)) (b : List String) : List String :=
  match a with
  | some l => if l = [] then b else l
  | none => b

/-- Embedding of process_portfolio (fastapi_app.py lines 256-332), run
single-threaded with a constant disk oracle.  Each guard that loads the
persisted report returns it when present (after the load updates the
state) and falls through with the state untouched when the disk is
empty, exactly as _load_report_from_disk only mutates state when data
exists.  now_outer and now_inner clock the two staleness checks and
now_gen the success-path fallback timestamp. -/
def process_portfolio (s : GenState) (req_period : Option String) (force : Bool)
    (req_symbols : Option (List String)) (config_symbols : List String)
    (disk : Option DiskData) (market_open : Bool) (now_outer now_inner now_gen : Int)
    (builder : Except E Report) : ProcessResult E :=
  let period := pyOrStr req_period DEFAULT_PERIOD
  let symbols := pyOrList req_symbols config_symbols
  let gen : ProcessResult E :=
    match builder with
    | .ok report =>
      ⟨.ok (.generated report), ⟨some (report.generated_at.getD now_gen), some period, false⟩, true⟩
    | .error e => ⟨.error (500, e), ⟨s.timestamp, s.period, false⟩, true⟩
  let locked : ProcessResult E :=
    if !force && !should_regenerate now_inner s period then
      match disk with
      | some d => ⟨.ok (.cachedRecentLocked d), load_state s d, false⟩
      | none => gen
    else gen
  let stage3 : ProcessResult E :=
    if !force && !symbols.isEmpty && !(symbols.any (fun x => x.endsWith "-USD")) then
      if !market_open then ⟨.ok .skippedClosed, s, false⟩ else locked
    else locked
  let stage2 : ProcessResult E :=
    if !force && !should_regenerate now_outer s period then
      match disk with
      | some d => ⟨.ok (.cachedRecent d), load_state s d, false⟩
      | none => stage3
    else stage3
  if s.in_progress && !force then
    match disk with
    | some d => ⟨.ok (.cachedBusy d), load_state s d, false⟩
    | none => stage2
  else stage2

/-! ## Market-overview aggregator (portfolio_calculator.py)

The aggregator is modelled for the call get_market_overview(watchlist,
top_n=n), that is with source_data left at its default None, so the
persisted-overview shortcut at lines 215-232 falls through.  The
data_fetcher is abstracted by three oracles: info for get_stock_info
(whose result for a symbol is stable across the run thanks to its
cache), weekly for get_weekly_performance, and movers for
get_market_movers, already row-wise per category (none when the fetch
returned None).  The inter-item sleeps have no observable state. -/

/-- One watchlist item as the aggregator reads it: item.get("symbol"),
item.get("name", ...), item.get("exchange", ...). -/
structure WItem where
  symbol : Option String
  name : Option String
  exchange : Option String
deriving DecidableEq

/-- One row of a normalized mover table as the aggregator reads it.
The symbol is str(row.get("symbol", "")) before upper-casing; numeric
cells have passed the normalizer so they are numbers or None. -/
structure MoverRow where
  symbol : String
  name : Option String
  price : Option Rat
  percent_change : Option Rat
  volume : Option Rat
  market_cap : Option Rat
deriving DecidableEq

/-- An aggregated entry: the payload dict built at lines 260-270 and
305-316, with optional fields for values that can be None or missing. -/
structure Entry where
  symbol : String
  name : Option String
  exchange : Option String
  current_price : Option Rat
  change_percent : Option Rat
  market_cap : Option Rat
  volume : Option Rat
  logo_url : Option String
  weekly_performance : Option (List Rat)
  source : Option String
deriving DecidableEq

/-- Field-level rule of the dict merge at line 244: the incoming value
wins when it is non-null, otherwise the existing value stays. -/
def pyMergeField (existing incoming : Option α) : Option α :=
  match incoming with
  | some v => some v
  | none => existing

/-- The merge of the upsert helper (portfolio_calculator.py lines
242-245) on two entries of one symbol.  The symbol field of a payload
is always the non-empty upsert key at both call sites, so the merged
symbol is the incoming one. -/
def mergeEntry (existing incoming : Entry) : Entry :=
  { symbol := incoming.symbol
    name := pyMergeField existing.name incoming.name
    exchange := pyMergeField existing.exchange incoming.exchange
    current_price := pyMergeField existing.current_price incoming.current_price
    change_percent := pyMergeField existing.change_percent incoming.change_percent
    market_cap := pyMergeField existing.market_cap incoming.market_cap
    volume := pyMergeField existing.volume incoming.volume
    logo_url := pyMergeField existing.logo_url incoming.logo_url
    weekly_performance := pyMergeField existing.weekly_performance incoming.weekly_performance
    source := pyMergeField existing.source incoming.source }

/-- The upsert helper on one bucket, modelled as the insert-ordered
list of values of the dict keyed by symbol: an existing entry of the
same symbol is merged in place, otherwise the payload is appended. -/
def upsertList (bucket : List Entry) (symbol : String) (payload : Entry) : List Entry :=
  if bucket.any (fun e => e.symbol = symbol) then
    bucket.map (fun e => if e.symbol = symbol then mergeEntry e payload else e)
  else bucket ++ [payload]

/-- The five buckets of market_data_map (lines 234-240). -/
structure Buckets where
  watchlist : List Entry
  viewed : List Entry
  gainers : List Entry
  losers : List Entry
  active : List Entry
deriving DecidableEq

/-- Python x or y on an optional number: a None or zero value falls
back to y (0.0 is falsy). -/
def pyOrRat (a : Option Rat) (b : Option Rat) : Option Rat :=
  match a with
  | some x => if x = 0 then b else some x
  | none => b

/-- Python x or y on an optional string against a string fallback: a
None or empty value falls back. -/
def pyOrStrD (a : Option String) (b : String) : String :=
  match a with
  | some s => if s = "" then b else s
  | none => b

/-- The payload built for a watchlist item (lines 260-270).  info.get
of name with a default always finds the name key of the stock-info
dict, so the default is its name; the same holds for exchange. -/
def watchPayload (info : String → StockInfo) (weekly : String → Option (List Rat))
    (item : WItem) (symbol : String) : Entry :=
  let i := info symbol
  { symbol := symbol
    name := some (match item.name with | some v => v | none => i.name)
    exchange := (match item.exchange with | some v => some v | none => i.exchange)
    current_price := i.current_price
    change_percent := i.change_percent
    market_cap := i.market_cap
    volume := i.volume
    logo_url := i.logo_url
    weekly_performance := weekly symbol
    source := none }

/-- One watchlist iteration (lines 248-276): skip falsy symbols, build
the payload, upsert it into the watchlist bucket, and route strictly
positive changes to gainers and strictly negative ones to losers. -/
def processWatchItem (info : String → StockInfo) (weekly : String → Option (List Rat))
    (b : Buckets) (item : WItem) : Buckets :=
  match item.symbol with
  | none => b
  | some symbol =>
    if symbol = "" then b
    else
      let payload := watchPayload info weekly item symbol
      let b1 := { b with watchlist := upsertList b.watchlist symbol payload }
      match payload.change_percent with
      | some c =>
        if c > 0 then { b1 with gainers := upsertList b1.gainers symbol payload }
        else if c < 0 then { b1 with losers := upsertList b1.losers symbol payload }
        else b1
      | none => b1

/-- The payload built for a mover row (lines 305-316); row values win
over the cached info only when truthy, through the Python or. -/
def moverPayload (info : String → StockInfo) (weekly : String → Option (List Rat))
    (mover_type : String) (row : MoverRow) (symbol : String) : Entry :=
  let i := info symbol
  { symbol := symbol
    name := some (pyOrStrD row.name i.name)
    exchange := i.exchange
    current_price := pyOrRat row.price i.current_price
    change_percent := pyOrRat row.percent_change i.change_percent
    market_cap := pyOrRat row.market_cap i.market_cap
    volume := pyOrRat row.volume i.volume
    logo_url := i.logo_url
    weekly_performance := weekly symbol
    source := some mover_type }

/-- Upsert into the bucket named by the category (lines 318-321). -/
def bucketUpdate (b : Buckets) (name : String) (symbol : String) (payload : Entry) : Buckets :=
  if name = "gainers" then { b with gainers := upsertList b.gainers symbol payload }
  else if name = "losers" then { b with losers := upsertList b.losers symbol payload }
  else if name = "active" then { b with active := upsertList b.active symbol payload }
  else if name = "viewed" then { b with viewed := upsertList b.viewed symbol payload }
  else b

/-- One mover-row iteration (lines 292-322): upper-case the symbol,
skip when empty, upsert into the category bucket and always also into
the viewed bucket. -/
def processMoverRow (info : String → StockInfo) (weekly : String → Option (List Rat))
    (mover_type : String) (b : Buckets) (row : MoverRow) : Buckets :=
  let symbol := pyUpper row.symbol
  if symbol = "" then b
  else
    let payload := moverPayload info weekly mover_type row symbol
    let b1 :=
      if mover_type = "active" then { b with active := upsertList b.active symbol payload }
      else bucketUpdate b mover_type symbol payload
    { b1 with viewed := upsertList b1.viewed symbol payload }

/-- One mover category (lines 286-292): a failed fetch is skipped
wholesale, otherwise the top top_n rows are processed in order. -/
def processMoverCategory (info : String → StockInfo) (weekly : String → Option (List Rat))
    (movers : String → Option (List MoverRow)) (top_n : Nat)
    (b : Buckets) (mover_type : String) : Buckets :=
  match movers mover_type with
  | none => b
  | some table => (table.take top_n).foldl (processMoverRow info weekly mover_type) b

/-- The bucket-filling phase of get_market_overview: the watchlist pass
followed by the four mover categories in the order of movers_map. -/
def buildBuckets (watchlist : List WItem) (info : String → StockInfo)
    (weekly : String → Option (List Rat)) (movers : String → Option (List MoverRow))
    (top_n : Nat) : Buckets :=
  let b0 : Buckets := ⟨[], [], [], [], []⟩
  let b1 := watchlist.foldl (processWatchItem info weekly) b0
  ["gainers", "losers", "active", "viewed"].foldl
    (processMoverCategory info weekly movers top_n) b1

/-- Stable insertion of x into a run, where prec y x means y must come
strictly before x; x passes over such y and stops at the first other
element, so equal elements keep their original relative order. -/
def stableInsert (prec : Entry → Entry → Bool) (x : Entry) : List Entry → List Entry
  | [] => [x]
  | y :: ys => if prec y x then y :: stableInsert prec x ys else x :: y :: ys

/-- Stable sort by the strict precedence prec.  Python sorted() is a
stable sort, and a stable sort of a list under a fixed comparison is
unique, so any stable sorting algorithm is a faithful model of it. -/
def stableSort (prec : Entry → Entry → Bool) : List Entry → List Entry
  | [] => []
  | x :: xs => stableInsert prec x (stableSort prec xs)

/-- The sort key of sort_bucket: entry.get(key) or 0, so a missing or
None value sorts as zero (and a zero value stays zero). -/
def keyChange (e : Entry) : Rat := e.change_percent.getD 0

/-- The volume sort key of sort_bucket. -/
def keyVolume (e : Entry) : Rat := e.volume.getD 0

/-- sort_bucket with reverse=True: stable descending by the key. -/
def sortBucketDesc (key : Entry → Rat) (l : List Entry) : List Entry :=
  stableSort (fun y x => decide (key y > key x)) l

/-- sort_bucket with reverse=False: stable ascending by the key. -/
def sortBucketAsc (key : Entry → Rat) (l : List Entry) : List Entry :=
  stableSort (fun y x => decide (key y < key x)) l

/-- The inner loop of merge_unique (lines 338-349) over the flattened
buckets, carrying the accumulated list and the seen set. -/
def mergeUniqueAux : List Entry → List Entry → List String → List Entry
  | [], acc, _ => acc
  | e :: rest, acc, seen =>
    if e.symbol = "" ∨ e.symbol ∈ seen then mergeUniqueAux rest acc seen
    else mergeUniqueAux rest (acc ++ [e]) (e.symbol :: seen)

/-- merge_unique: first occurrence of each non-empty symbol wins, in
bucket priority order. -/
def merge_unique (buckets : List (List Entry)) : List Entry :=
  mergeUniqueAux buckets.flatten [] []

/-- The watchlist backfill loop (lines 365-373): walk the sorted
watchlist, append entries whose symbol is truthy and unseen, and stop
as soon as the cap is reached. -/
def backfillAux (cap : Nat) : List Entry → List Entry → List String → List Entry
  | [], acc, _ => acc
  | item :: rest, acc, seen =>
    if item.symbol = "" ∨ item.symbol ∈ seen then backfillAux cap rest acc seen
    else
      let acc1 := acc ++ [item]
      if cap ≤ acc1.length then acc1
      else backfillAux cap rest acc1 (item.symbol :: seen)

/-- The backfill block (lines 363-373), guarded by the cap check. -/
def backfill (all_list : List Entry) (watchlist_list : List Entry) (cap : Nat) : List Entry :=
  if all_list.length < cap then
    backfillAux cap watchlist_list all_list (all_list.map Entry.symbol)
  else all_list

/-- The final response dict of get_market_overview (lines 375-381). -/
structure OverviewResult where
  all : List Entry
  gainers : List Entry
  losers : List Entry
  most_viewed : List Entry
  most_active : List Entry
deriving DecidableEq

/-- Embedding of PortfolioCalculator.get_market_overview
(portfolio_calculator.py lines 205-383) for the default source_data,
from the bucket-filling phase through sorting, merge_unique, the
empty-merge watchlist fallback, the backfill and the truncations. -/
def get_market_overview (watchlist : List WItem) (top_n : Nat)
    (info : String → StockInfo) (weekly : String → Option (List Rat))
    (movers : String → Option (List MoverRow)) : OverviewResult :=
  let b := buildBuckets watchlist info weekly movers top_n
  let viewed_list := sortBucketDesc keyVolume b.viewed
  let watchlist_list := sortBucketDesc keyChange b.watchlist
  let gainers_list := sortBucketDesc keyChange b.gainers
  let losers_list := sortBucketAsc keyChange b.losers
  let active_list := sortBucketDesc keyVolume b.active
  let all0 := merge_unique [gainers_list, losers_list, active_list, viewed_list]
  let all1 := if all0 = [] then merge_unique [watchlist_list] else all0
  let all2 := backfill all1 watchlist_list (top_n * 2)
  { all := all2.take (top_n * 2)
    gainers := gainers_list.take top_n
    losers := losers_list.take top_n
    most_viewed := if viewed_list = [] then watchlist_list.take top_n
                   else viewed_list.take top_n
    most_active := active_list.take top_n }

/-- The backfill admission test as a Boolean: a truthy symbol that is
not among the seen ones. -/
def candidate (seen : List String) (e : Entry) : Bool :=
  decide (¬ (e.symbol = "" ∨ e.symbol ∈ seen))

/-- Well-formedness of one bucket list: symbols are pairwise distinct
(it is the value list of a dict keyed by symbol) and non-empty (both
call sites skip falsy symbols). -/
def BucketWF (l : List Entry) : Prop :=
  (l.map Entry.symbol).Nodup ∧ ∀ e ∈ l, e.symbol ≠ ""

/-- Well-formedness of all five buckets. -/
def BucketsWF (b : Buckets) : Prop :=
  BucketWF b.watchlist ∧ BucketWF b.viewed ∧ BucketWF b.gainers ∧
    BucketWF b.losers ∧ BucketWF b.active

/-- Routing invariant of the watchlist pass: a watchlist-bucket entry
whose sort key is non-zero was routed into the gainers or losers
bucket under its symbol. -/
def WatchRouted (b : Buckets) : Prop :=
  ∀ e ∈ b.watchlist, keyChange e ≠ 0 →
    e.symbol ∈ b.gainers.map Entry.symbol ∨ e.symbol ∈ b.losers.map Entry.symbol

/-- Concrete two-item watchlist used to exercise the aggregator: A then
B, in that order. -/
def cexWatch : List WItem := [⟨some "A", none, none⟩, ⟨some "B", none, none⟩]

/-- Concrete quote oracle: A gained one percent, B gained two. -/
def cexInfo : String → StockInfo := fun s =>
  if s = "A" then ⟨"A", "A Corp", some 10, some 1, none, none, none, none, "USD"⟩
  else ⟨s, "B Corp", some 20, some 2, none, none, none, none, "USD"⟩

/-- Concrete weekly oracle: no history available. -/
def cexWeekly : String → Option (List Rat) := fun _ => none

/-- Concrete movers oracle: every mover fetch failed. -/
def cexMovers : String → Option (List MoverRow) := fun _ => none

/-! ## Theorems -/

/-- stableInsert produces a permutation of consing the element. -/
theorem stableInsert_perm (prec : Entry → Entry → Bool) (x : Entry) (l : List Entry) :
    (stableInsert prec x l).Perm (x :: l) := by
  induction l with
  | nil => simp [stableInsert]
  | cons y ys ih =>
    simp only [stableInsert]
    split
    · exact (ih.cons y).trans (List.Perm.swap x y ys)
    · exact List.Perm.refl _

/-- stableSort permutes its input. -/
theorem stableSort_perm (prec : Entry → Entry → Bool) (l : List Entry) :
    (stableSort prec l).Perm l := by
  induction l with
  | nil => simp [stableSort]
  | cons x xs ih => exact (stableInsert_perm prec x (stableSort prec xs)).trans (ih.cons x)

/-- Inserting an element the filter rejects does not change the
filtered view. -/
theorem filter_stableInsert_neg (prec : Entry → Entry → Bool) (p : Entry → Bool)
    (x : Entry) (l : List Entry) (hx : p x = false) :
    (stableInsert prec x l).filter p = l.filter p := by
  induction l with
  | nil => simp [stableInsert, hx]
  | cons y ys ih =>
    simp only [stableInsert]
    split
    · simp only [List.filter_cons]
      cases hy : p y <;> simp [hy, ih]
    · simp [List.filter_cons, hx]

/-- Inserting an element the filter keeps, which no kept element of the
run must precede, puts it at the head of the filtered view. -/
theorem filter_stableInsert_pos (prec : Entry → Entry → Bool) (p : Entry → Bool)
    (x : Entry) (l : List Entry) (hx : p x = true)
    (h : ∀ y ∈ l, p y = true → prec y x = false) :
    (stableInsert prec x l).filter p = x :: l.filter p := by
  induction l with
  | nil => simp [stableInsert, hx]
  | cons y ys ih =>
    simp only [stableInsert]
    by_cases hyx : prec y x = true
    · rw [if_pos hyx]
      have hpy : p y = false := by
        cases hpy : p y
        · rfl
        · have := h y (List.mem_cons_self y ys) hpy
          rw [hyx] at this
          cases this
      rw [List.filter_cons, List.filter_cons]
      simp only [hpy, Bool.false_eq_true, if_false]
      exact ih (fun z hz hpz => h z (List.mem_cons_of_mem y hz) hpz)
    · rw [if_neg hyx]
      simp [List.filter_cons, hx]

/-- Stability of stableSort: if the kept elements are mutually
unordered under prec, sorting does not change their filtered view. -/
theorem filter_stableSort (prec : Entry → Entry → Bool) (p : Entry → Bool) (l : List Entry)
    (h : ∀ a ∈ l, ∀ b ∈ l, p a = true → p b = true → prec a b = false) :
    (stableSort prec l).filter p = l.filter p := by
  induction l with
  | nil => rfl
  | cons x xs ih =>
    simp only [stableSort]
    have hsub : ∀ y ∈ stableSort prec xs, y ∈ xs :=
      fun y hy => (stableSort_perm prec xs).subset hy
    have hrec := ih (fun a ha b hb hpa hpb =>
      h a (List.mem_cons_of_mem x ha) b (List.mem_cons_of_mem x hb) hpa hpb)
    cases hx : p x
    · rw [filter_stableInsert_neg prec p x _ hx, hrec, List.filter_cons]
      simp [hx]
    · rw [filter_stableInsert_pos prec p x _ hx
        (fun y hy hpy => h y (List.mem_cons_of_mem x (hsub y hy)) x
          (List.mem_cons_self x xs) hpy hx), hrec, List.filter_cons]
      simp [hx]

/-- A run whose elements are mutually unordered under prec is left
unchanged by stableSort. -/
theorem stableSort_eq_self (prec : Entry → Entry → Bool) (l : List Entry)
    (h : ∀ a ∈ l, ∀ b ∈ l, prec a b = false) : stableSort prec l = l := by
  have hfil := filter_stableSort prec (fun _ => true) l
    (fun a ha b hb _ _ => h a ha b hb)
  simpa using hfil

/-- stableInsert preserves sortedness, given asymmetry and negative
transitivity of prec. -/
theorem pairwise_stableInsert (prec : Entry → Entry → Bool) (x : Entry) (l : List Entry)
    (hasym : ∀ a b : Entry, prec a b = true → prec b a = false)
    (htrans : ∀ a b c : Entry, prec b a = false → prec c b = false → prec c a = false)
    (hl : l.Pairwise (fun a b => prec b a = false)) :
    (stableInsert prec x l).Pairwise (fun a b => prec b a = false) := by
  induction l with
  | nil => simp [stableInsert]
  | cons y ys ih =>
    simp only [stableInsert]
    rcases List.pairwise_cons.mp hl with ⟨hy, hys⟩
    by_cases hyx : prec y x = true
    · rw [if_pos hyx]
      refine List.pairwise_cons.mpr ⟨?_, ih hys⟩
      intro z hz
      rcases List.mem_cons.mp ((stableInsert_perm prec x ys).subset hz) with rfl | hzys
      · exact hasym y z hyx
      · exact hy z hzys
    · rw [if_neg hyx]
      have hxy : prec y x = false := by
        cases hv : prec y x
        · rfl
        · exact absurd hv hyx
      refine List.pairwise_cons.mpr ⟨?_, hl⟩
      intro z hz
      rcases List.mem_cons.mp hz with rfl | hzys
      · exact hxy
      · exact htrans x y z hxy (hy z hzys)

/-- stableSort sorts: adjacent-free pairwise order under prec. -/
theorem pairwise_stableSort (prec : Entry → Entry → Bool) (l : List Entry)
    (hasym : ∀ a b : Entry, prec a b = true → prec b a = false)
    (htrans : ∀ a b c : Entry, prec b a = false → prec c b = false → prec c a = false) :
    (stableSort prec l).Pairwise (fun a b => prec b a = false) := by
  induction l with
  | nil => simp [stableSort]
  | cons x xs ih => exact pairwise_stableInsert prec x _ hasym htrans ih

/-- Upserting a symbol already present leaves the symbol sequence of a
bucket unchanged. -/
theorem upsert_symbols_mem (l : List Entry) (s : String) (p : Entry)
    (hp : p.symbol = s) (h : l.any (fun e => e.symbol = s) = true) :
    (upsertList l s p).map Entry.symbol = l.map Entry.symbol := by
  rw [upsertList, if_pos h, List.map_map]
  apply List.map_congr_left
  intro e _
  by_cases hes : e.symbol = s
  · simp only [Function.comp_apply, hes, if_true, mergeEntry, hp]
  · simp only [Function.comp_apply, hes, if_false]

/-- Upserting a fresh symbol appends it to the symbol sequence. -/
theorem upsert_symbols_new (l : List Entry) (s : String) (p : Entry)
    (h : l.any (fun e => e.symbol = s) = false) :
    (upsertList l s p).map Entry.symbol = l.map Entry.symbol ++ [p.symbol] := by
  rw [upsertList, if_neg (by simp [h])]
  simp

/-- Every member of an upserted bucket is an old member, the payload,
or the merge of an old member of the key symbol with the payload. -/
theorem mem_upsert (l : List Entry) (s : String) (p : Entry) :
    ∀ e1 ∈ upsertList l s p,
      e1 ∈ l ∨ e1 = p ∨ ∃ e ∈ l, e.symbol = s ∧ e1 = mergeEntry e p := by
  intro e1 h1
  rw [upsertList] at h1
  split at h1
  · rcases List.mem_map.mp h1 with ⟨e, he, heq⟩
    by_cases hes : e.symbol = s
    · right; right
      exact ⟨e, he, hes, by rw [← heq, if_pos hes]⟩
    · left
      rw [← heq, if_neg hes]
      exact he
  · rcases List.mem_append.mp h1 with h | h
    · left; exact h
    · right; left; simpa using h

/-- Upserting only grows the symbol set of a bucket. -/
theorem upsert_symbols_subset (l : List Entry) (s : String) (p : Entry)
    (hp : p.symbol = s) :
    ∀ x ∈ l.map Entry.symbol, x ∈ (upsertList l s p).map Entry.symbol := by
  intro x hx
  cases hany : l.any (fun e => e.symbol = s)
  · rw [upsert_symbols_new l s p hany]
    exact List.mem_append_left _ hx
  · rw [upsert_symbols_mem l s p hp hany]
    exact hx

/-- After an upsert the key symbol is present in the bucket. -/
theorem upsert_symbol_mem_self (l : List Entry) (s : String) (p : Entry)
    (hp : p.symbol = s) : s ∈ (upsertList l s p).map Entry.symbol := by
  cases hany : l.any (fun e => e.symbol = s)
  · rw [upsert_symbols_new l s p hany, ← hp]
    exact List.mem_append_right _ (by simp)
  · rw [upsert_symbols_mem l s p hp hany]
    rcases List.any_eq_true.mp hany with ⟨e, he, hes⟩
    exact List.mem_map.mpr ⟨e, he, of_decide_eq_true hes⟩

/-- Upserting with a truthy key preserves bucket well-formedness. -/
theorem upsert_WF (l : List Entry) (s : String) (p : Entry)
    (hp : p.symbol = s) (hs : s ≠ "") (h : BucketWF l) : BucketWF (upsertList l s p) := by
  obtain ⟨hnd, hne⟩ := h
  constructor
  · cases hany : l.any (fun e => e.symbol = s)
    · rw [upsert_symbols_new l s p hany]
      have hnotin : p.symbol ∉ l.map Entry.symbol := by
        rw [hp]
        intro hmem
        rcases List.mem_map.mp hmem with ⟨e, he, hes⟩
        have hcontra : l.any (fun e => e.symbol = s) = true :=
          List.any_eq_true.mpr ⟨e, he, decide_eq_true hes⟩
        rw [hany] at hcontra
        cases hcontra
      simp [List.nodup_append, hnd, hnotin]
    · rw [upsert_symbols_mem l s p hp hany]
      exact hnd
  · intro e1 h1
    rcases mem_upsert l s p e1 h1 with h | h | ⟨e, _, _, heq⟩
    · exact hne e1 h
    · rw [h, hp]; exact hs
    · rw [heq]
      show p.symbol ≠ ""
      rw [hp]; exact hs

/-- bucketUpdate preserves well-formedness of all buckets. -/
theorem bucketUpdate_WF (b : Buckets) (name s : String) (p : Entry)
    (hp : p.symbol = s) (hs : s ≠ "") (h : BucketsWF b) :
    BucketsWF (bucketUpdate b name s p) := by
  obtain ⟨hw, hv, hg, hl, ha⟩ := h
  unfold bucketUpdate
  split_ifs
  · exact ⟨hw, hv, upsert_WF _ s p hp hs hg, hl, ha⟩
  · exact ⟨hw, hv, hg, upsert_WF _ s p hp hs hl, ha⟩
  · exact ⟨hw, hv, hg, hl, upsert_WF _ s p hp hs ha⟩
  · exact ⟨hw, upsert_WF _ s p hp hs hv, hg, hl, ha⟩
  · exact ⟨hw, hv, hg, hl, ha⟩

/-- One watchlist step preserves well-formedness. -/
theorem processWatchItem_WF (info : String → StockInfo)
    (weekly : String → Option (List Rat)) (b : Buckets) (item : WItem)
    (h : BucketsWF b) : BucketsWF (processWatchItem info weekly b item) := by
  obtain ⟨isym, iname, iex⟩ := item
  cases isym with
  | none => exact h
  | some symbol =>
    obtain ⟨hw, hv, hg, hl, ha⟩ := h
    unfold processWatchItem
    dsimp only
    by_cases hsym : symbol = ""
    · rw [if_pos hsym]
      exact ⟨hw, hv, hg, hl, ha⟩
    · rw [if_neg hsym]
      have hw1 : BucketWF (upsertList b.watchlist symbol
          (watchPayload info weekly ⟨some symbol, iname, iex⟩ symbol)) :=
        upsert_WF _ symbol _ rfl hsym hw
      cases hc : (watchPayload info weekly ⟨some symbol, iname, iex⟩ symbol).change_percent with
      | none => exact ⟨hw1, hv, hg, hl, ha⟩
      | some c =>
        dsimp only
        by_cases hpos : c > 0
        · rw [if_pos hpos]
          exact ⟨hw1, hv, upsert_WF _ symbol _ rfl hsym hg, hl, ha⟩
        · rw [if_neg hpos]
          by_cases hneg : c < 0
          · rw [if_pos hneg]
            exact ⟨hw1, hv, hg, upsert_WF _ symbol _ rfl hsym hl, ha⟩
          · rw [if_neg hneg]
            exact ⟨hw1, hv, hg, hl, ha⟩

/-- One mover-row step preserves well-formedness. -/
theorem processMoverRow_WF (info : String → StockInfo)
    (weekly : String → Option (List Rat)) (mt : String) (b : Buckets) (row : MoverRow)
    (h : BucketsWF b) : BucketsWF (processMoverRow info weekly mt b row) := by
  unfold processMoverRow
  dsimp only
  set sym := pyUpper row.symbol with hsymdef
  set pay := moverPayload info weekly mt row sym with hpaydef
  by_cases hsym : sym = ""
  · rw [if_pos hsym]; exact h
  · rw [if_neg hsym]
    have h1 : BucketsWF (if mt = "active" then { b with active := upsertList b.active sym pay } else bucketUpdate b mt sym pay) := by
      split_ifs
      · obtain ⟨hw, hv, hg, hl, ha⟩ := h
        exact ⟨hw, hv, hg, hl, upsert_WF _ _ _ rfl hsym ha⟩
      · exact bucketUpdate_WF b mt _ _ rfl hsym h
    obtain ⟨hw1, hv1, hg1, hl1, ha1⟩ := h1
    exact ⟨hw1, upsert_WF _ _ _ rfl hsym hv1, hg1, hl1, ha1⟩

/-- A fold step preserving a predicate preserves it over the fold. -/
theorem foldl_preserve {α : Type} (P : Buckets → Prop) (f : Buckets → α → Buckets)
    (hf : ∀ b a, P b → P (f b a)) :
    ∀ (l : List α) (b : Buckets), P b → P (l.foldl f b) := by
  intro l
  induction l with
  | nil => intro b hb; exact hb
  | cons x xs ih => intro b hb; exact ih _ (hf b x hb)

/-- Mover-row processing never touches the watchlist bucket. -/
theorem processMoverRow_watchlist (info : String → StockInfo)
    (weekly : String → Option (List Rat)) (mt : String) (b : Buckets) (row : MoverRow) :
    (processMoverRow info weekly mt b row).watchlist = b.watchlist := by
  unfold processMoverRow bucketUpdate
  dsimp only
  split_ifs <;> rfl

/-- Mover-row processing only grows the gainers and losers symbol
sets. -/
theorem processMoverRow_gl_mono (info : String → StockInfo)
    (weekly : String → Option (List Rat)) (mt : String) (b : Buckets) (row : MoverRow) :
    (∀ x ∈ b.gainers.map Entry.symbol,
      x ∈ (processMoverRow info weekly mt b row).gainers.map Entry.symbol) ∧
    (∀ x ∈ b.losers.map Entry.symbol,
      x ∈ (processMoverRow info weekly mt b row).losers.map Entry.symbol) := by
  unfold processMoverRow bucketUpdate
  dsimp only
  split_ifs <;>
    refine ⟨fun x hx => ?_, fun x hx => ?_⟩ <;>
      first
        | exact hx
        | exact upsert_symbols_subset _ (pyUpper row.symbol)
            (moverPayload info weekly mt row (pyUpper row.symbol)) rfl x hx

/-- One watchlist step preserves the routing invariant. -/
theorem processWatchItem_routed (info : String → StockInfo)
    (weekly : String → Option (List Rat)) (b : Buckets) (item : WItem)
    (h : WatchRouted b) : WatchRouted (processWatchItem info weekly b item) := by
  obtain ⟨isym, iname, iex⟩ := item
  cases isym with
  | none => exact h
  | some symbol =>
    unfold processWatchItem
    dsimp only
    by_cases hsym : symbol = ""
    · rw [if_pos hsym]; exact h
    · rw [if_neg hsym]
      set pay := watchPayload info weekly ⟨some symbol, iname, iex⟩ symbol with hpay
      have hpsym : pay.symbol = symbol := rfl
      cases hc : pay.change_percent with
      | none =>
        intro e1 he1 hkey
        rcases mem_upsert b.watchlist symbol pay e1 he1 with hmem | heq | ⟨e, he, hes, heq⟩
        · exact h e1 hmem hkey
        · rw [heq] at hkey
          exact absurd (by simp [keyChange, hc]) hkey
        · rw [heq] at hkey
          have hkey2 : keyChange e ≠ 0 := by
            simpa [keyChange, mergeEntry, pyMergeField, hc] using hkey
          have hres := h e he hkey2
          rw [heq]
          have hsymeq : (mergeEntry e pay).symbol = e.symbol := by
            rw [show (mergeEntry e pay).symbol = pay.symbol from rfl, hpsym, hes]
          rw [hsymeq]
          exact hres
      | some c =>
        dsimp only
        by_cases hpos : c > 0
        · rw [if_pos hpos]
          intro e1 he1 hkey
          rcases mem_upsert b.watchlist symbol pay e1 he1 with hmem | heq | ⟨e, he, hes, heq⟩
          · rcases h e1 hmem hkey with hg | hl
            · exact Or.inl (upsert_symbols_subset b.gainers symbol pay rfl _ hg)
            · exact Or.inr hl
          · refine Or.inl ?_
            rw [heq, hpsym]
            exact upsert_symbol_mem_self b.gainers symbol pay rfl
          · refine Or.inl ?_
            rw [heq]
            have hsymeq : (mergeEntry e pay).symbol = symbol := by
              rw [show (mergeEntry e pay).symbol = pay.symbol from rfl, hpsym]
            rw [hsymeq]
            exact upsert_symbol_mem_self b.gainers symbol pay rfl
        · rw [if_neg hpos]
          by_cases hneg : c < 0
          · rw [if_pos hneg]
            intro e1 he1 hkey
            rcases mem_upsert b.watchlist symbol pay e1 he1 with hmem | heq | ⟨e, he, hes, heq⟩
            · rcases h e1 hmem hkey with hg | hl
              · exact Or.inl hg
              · exact Or.inr (upsert_symbols_subset b.losers symbol pay rfl _ hl)
            · refine Or.inr ?_
              rw [heq, hpsym]
              exact upsert_symbol_mem_self b.losers symbol pay rfl
            · refine Or.inr ?_
              rw [heq]
              have hsymeq : (mergeEntry e pay).symbol = symbol := by
                rw [show (mergeEntry e pay).symbol = pay.symbol from rfl, hpsym]
              rw [hsymeq]
              exact upsert_symbol_mem_self b.losers symbol pay rfl
          · rw [if_neg hneg]
            have hc0 : c = 0 := le_antisymm (not_lt.mp hpos) (not_lt.mp hneg)
            intro e1 he1 hkey
            rcases mem_upsert b.watchlist symbol pay e1 he1 with hmem | heq | ⟨e, he, hes, heq⟩
            · exact h e1 hmem hkey
            · rw [heq] at hkey
              exact absurd (by simp [keyChange, hc, hc0]) hkey
            · rw [heq] at hkey
              exact absurd (by simp [keyChange, mergeEntry, pyMergeField, hc, hc0]) hkey

/-- One mover-row step preserves the routing invariant. -/
theorem processMoverRow_routed (info : String → StockInfo)
    (weekly : String → Option (List Rat)) (mt : String) (b : Buckets) (row : MoverRow)
    (h : WatchRouted b) : WatchRouted (processMoverRow info weekly mt b row) := by
  intro e1 he1 hkey
  rw [processMoverRow_watchlist] at he1
  rcases h e1 he1 hkey with hg | hl
  · exact Or.inl ((processMoverRow_gl_mono info weekly mt b row).1 _ hg)
  · exact Or.inr ((processMoverRow_gl_mono info weekly mt b row).2 _ hl)

/-- One mover category preserves well-formedness and routing. -/
theorem processMoverCategory_pres (info : String → StockInfo)
    (weekly : String → Option (List Rat)) (movers : String → Option (List MoverRow))
    (top_n : Nat) (b : Buckets) (mt : String) (h : BucketsWF b ∧ WatchRouted b) :
    BucketsWF (processMoverCategory info weekly movers top_n b mt) ∧
      WatchRouted (processMoverCategory info weekly movers top_n b mt) := by
  unfold processMoverCategory
  cases movers mt with
  | none => exact h
  | some table =>
    exact foldl_preserve (fun b => BucketsWF b ∧ WatchRouted b)
      (processMoverRow info weekly mt)
      (fun b row hb => ⟨processMoverRow_WF info weekly mt b row hb.1,
        processMoverRow_routed info weekly mt b row hb.2⟩)
      (table.take top_n) b h

/-- The buckets built by get_market_overview are well-formed and
satisfy the routing invariant. -/
theorem buildBuckets_props (watchlist : List WItem) (info : String → StockInfo)
    (weekly : String → Option (List Rat)) (movers : String → Option (List MoverRow))
    (top_n : Nat) :
    BucketsWF (buildBuckets watchlist info weekly movers top_n) ∧
      WatchRouted (buildBuckets watchlist info weekly movers top_n) := by
  unfold buildBuckets
  apply foldl_preserve (fun b => BucketsWF b ∧ WatchRouted b)
    (processMoverCategory info weekly movers top_n)
    (fun b mt hb => processMoverCategory_pres info weekly movers top_n b mt hb)
  apply foldl_preserve (fun b => BucketsWF b ∧ WatchRouted b)
    (processWatchItem info weekly)
    (fun b item hb => ⟨processWatchItem_WF info weekly b item hb.1,
      processWatchItem_routed info weekly b item hb.2⟩)
  constructor
  · exact ⟨⟨by simp, by simp⟩, ⟨by simp, by simp⟩, ⟨by simp, by simp⟩,
      ⟨by simp, by simp⟩, ⟨by simp, by simp⟩⟩
  · intro e he _
    cases he

/-- Accumulated entries persist through mergeUniqueAux. -/
theorem mergeUniqueAux_acc_subset (l : List Entry) :
    ∀ (acc : List Entry) (seen : List String),
      ∀ x ∈ acc.map Entry.symbol, x ∈ (mergeUniqueAux l acc seen).map Entry.symbol := by
  induction l with
  | nil => intro acc seen x hx; exact hx
  | cons e rest ih =>
    intro acc seen x hx
    simp only [mergeUniqueAux]
    split
    · exact ih acc seen x hx
    · refine ih (acc ++ [e]) (e.symbol :: seen) x ?_
      rw [List.map_append]
      exact List.mem_append_left _ hx

/-- Coverage of merge_unique: every non-empty symbol of the input
survives (possibly carried by another entry of the same symbol). -/
theorem mergeUniqueAux_covers (l : List Entry) :
    ∀ (acc : List Entry) (seen : List String) (s : String),
      s ∈ l.map Entry.symbol → s ≠ "" →
      (s ∈ seen → s ∈ acc.map Entry.symbol) →
      s ∈ (mergeUniqueAux l acc seen).map Entry.symbol := by
  induction l with
  | nil =>
    intro acc seen s hs _ _
    simp at hs
  | cons e rest ih =>
    intro acc seen s hs hne hseen
    simp only [List.map_cons, List.mem_cons] at hs
    simp only [mergeUniqueAux]
    split
    · rename_i hcond
      rcases hs with rfl | hs2
      · rcases hcond with hemp | hin
        · exact absurd hemp hne
        · exact mergeUniqueAux_acc_subset rest acc seen _ (hseen hin)
      · exact ih acc seen s hs2 hne hseen
    · rcases hs with rfl | hs2
      · apply mergeUniqueAux_acc_subset
        rw [List.map_append]
        exact List.mem_append_right _ (by simp)
      · refine ih (acc ++ [e]) (e.symbol :: seen) s hs2 hne ?_
        intro hseen2
        rw [List.map_append]
        rcases List.mem_cons.mp hseen2 with rfl | hseenold
        · exact List.mem_append_right _ (by simp)
        · exact List.mem_append_left _ (hseen hseenold)

/-- The output of mergeUniqueAux is well-formed given a well-formed
accumulator covered by the seen set. -/
theorem mergeUniqueAux_WF (l : List Entry) :
    ∀ (acc : List Entry) (seen : List String),
      (acc.map Entry.symbol).Nodup → (∀ x ∈ acc.map Entry.symbol, x ∈ seen) →
      (∀ e ∈ acc, e.symbol ≠ "") →
      ((mergeUniqueAux l acc seen).map Entry.symbol).Nodup ∧
        ∀ e ∈ mergeUniqueAux l acc seen, e.symbol ≠ "" := by
  induction l with
  | nil => intro acc seen h1 _ h3; exact ⟨h1, h3⟩
  | cons e rest ih =>
    intro acc seen h1 h2 h3
    simp only [mergeUniqueAux]
    split
    · exact ih acc seen h1 h2 h3
    · rename_i hcond
      have hemp : e.symbol ≠ "" := fun hc => hcond (Or.inl hc)
      have hnotseen : e.symbol ∉ seen := fun hc => hcond (Or.inr hc)
      refine ih (acc ++ [e]) (e.symbol :: seen) ?_ ?_ ?_
      · rw [List.map_append]
        rw [List.nodup_append]
        refine ⟨h1, by simp, ?_⟩
        intro x hxa hxe
        simp at hxe
        rw [hxe] at hxa
        exact hnotseen (h2 _ hxa)
      · intro x hx
        rw [List.map_append] at hx
        rcases List.mem_append.mp hx with hxa | hxe
        · exact List.mem_cons_of_mem _ (h2 x hxa)
        · simp at hxe
          rw [hxe]
          exact List.mem_cons_self _ _
      · intro e2 he2
        rcases List.mem_append.mp he2 with h | h
        · exact h3 e2 h
        · simp at h
          rw [h]
          exact hemp

/-- On a well-formed run with a disjoint seen set, mergeUniqueAux just
appends the run. -/
theorem mergeUniqueAux_id (l : List Entry) :
    ∀ (acc : List Entry) (seen : List String),
      (l.map Entry.symbol).Nodup → (∀ e ∈ l, e.symbol ≠ "") →
      (∀ x ∈ l.map Entry.symbol, x ∉ seen) →
      mergeUniqueAux l acc seen = acc ++ l := by
  induction l with
  | nil => intro acc seen _ _ _; simp [mergeUniqueAux]
  | cons e rest ih =>
    intro acc seen hnd hne hdisj
    have hnd2 : (e.symbol :: rest.map Entry.symbol).Nodup := by
      rw [List.map_cons] at hnd
      exact hnd
    have hndc := List.nodup_cons.mp hnd2
    simp only [mergeUniqueAux]
    rw [if_neg]
    · rw [ih (acc ++ [e]) (e.symbol :: seen) hndc.2
        (fun x hx => hne x (List.mem_cons_of_mem e hx)) ?hdisj2]
      · simp
      case hdisj2 =>
        intro x hx hxmem
        rcases List.mem_cons.mp hxmem with rfl | hxold
        · exact hndc.1 hx
        · exact hdisj x (by simp [hx]) hxold
    · intro hcond
      rcases hcond with h | h
      · exact hne e (List.mem_cons_self e rest) h
      · exact hdisj e.symbol (by simp) h

/-- Output well-formedness of merge_unique. -/
theorem merge_unique_WF (buckets : List (List Entry)) :
    ((merge_unique buckets).map Entry.symbol).Nodup ∧
      ∀ e ∈ merge_unique buckets, e.symbol ≠ "" := by
  unfold merge_unique
  exact mergeUniqueAux_WF _ [] [] (by simp) (by simp) (by simp)

/-- Symbol coverage of merge_unique over the flattened buckets. -/
theorem merge_unique_covers (buckets : List (List Entry)) (s : String) (hs : s ≠ "")
    (h : s ∈ buckets.flatten.map Entry.symbol) :
    s ∈ (merge_unique buckets).map Entry.symbol := by
  unfold merge_unique
  exact mergeUniqueAux_covers _ [] [] s h hs (by simp)

/-- Loop characterization of the backfill walk: it appends the
candidate entries in run order, up to the cap. -/
theorem backfillAux_char (l : List Entry) :
    ∀ (acc : List Entry) (seen : List String) (cap : Nat),
      acc.length < cap → (l.map Entry.symbol).Nodup →
      backfillAux cap l acc seen =
        acc ++ (l.filter (candidate seen)).take (cap - acc.length) := by
  induction l with
  | nil => intro acc seen cap _ _; simp [backfillAux]
  | cons e rest ih =>
    intro acc seen cap hlen hnd
    have hnd2 : (e.symbol :: rest.map Entry.symbol).Nodup := by
      rw [List.map_cons] at hnd
      exact hnd
    have hndc := List.nodup_cons.mp hnd2
    simp only [backfillAux]
    by_cases hcond : e.symbol = "" ∨ e.symbol ∈ seen
    · rw [if_pos hcond, ih acc seen cap hlen hndc.2]
      have hcf : candidate seen e = false := decide_eq_false (not_not_intro hcond)
      rw [List.filter_cons]
      simp [hcf]
    · rw [if_neg hcond]
      have hcf : candidate seen e = true := decide_eq_true hcond
      by_cases hcap : cap ≤ (acc ++ [e]).length
      · rw [if_pos hcap]
        have hcapeq : cap = acc.length + 1 := by
          simp at hcap
          omega
        rw [List.filter_cons]
        simp only [hcf, if_true]
        rw [hcapeq, Nat.add_sub_cancel_left]
        simp
      · rw [if_neg hcap]
        have hlt : (acc ++ [e]).length < cap := by
          simp at hcap ⊢
          omega
        rw [ih (acc ++ [e]) (e.symbol :: seen) cap hlt hndc.2]
        have hfeq : rest.filter (candidate (e.symbol :: seen)) =
            rest.filter (candidate seen) := by
          apply List.filter_congr
          intro y hy
          have hysym : y.symbol ≠ e.symbol := by
            intro hc
            exact hndc.1 (by rw [← hc]; exact List.mem_map_of_mem Entry.symbol hy)
          simp [candidate, hysym]
        rw [hfeq, List.filter_cons]
        simp only [hcf, if_true]
        have hTake : (e :: rest.filter (candidate seen)).take (cap - acc.length) =
            e :: (rest.filter (candidate seen)).take (cap - acc.length - 1) := by
          have hsplit : cap - acc.length = (cap - acc.length - 1) + 1 := by omega
          rw [hsplit, List.take_succ_cons]
          congr 2
        rw [hTake]
        have hlen2 : cap - (acc ++ [e]).length = cap - acc.length - 1 := by
          simp
          omega
        rw [hlen2]
        simp

/-- The backfill block characterized as filter plus take. -/
theorem backfill_char (all wl : List Entry) (cap : Nat)
    (hnd : (wl.map Entry.symbol).Nodup) :
    backfill all wl cap =
      all ++ (wl.filter (candidate (all.map Entry.symbol))).take (cap - all.length) := by
  unfold backfill
  split_ifs with h
  · exact backfillAux_char wl all (all.map Entry.symbol) cap h hnd
  · have hz : cap - all.length = 0 := by omega
    simp [hz]

/-- Sorting a bucket preserves its well-formedness. -/
theorem stableSort_BucketWF (prec : Entry → Entry → Bool) (l : List Entry)
    (h : BucketWF l) : BucketWF (stableSort prec l) := by
  constructor
  · exact (((stableSort_perm prec l).map Entry.symbol).nodup_iff).mpr h.1
  · exact fun e he => h.2 e ((stableSort_perm prec l).subset he)

/-- Descending sort_bucket preserves well-formedness. -/
theorem sortBucketDesc_WF (key : Entry → Rat) (l : List Entry) (h : BucketWF l) :
    BucketWF (sortBucketDesc key l) := stableSort_BucketWF _ l h

/-- Ascending sort_bucket preserves well-formedness. -/
theorem sortBucketAsc_WF (key : Entry → Rat) (l : List Entry) (h : BucketWF l) :
    BucketWF (sortBucketAsc key l) := stableSort_BucketWF _ l h

/-- Truncation preserves distinctness of symbols. -/
theorem take_symbols_nodup (l : List Entry) (n : Nat)
    (h : (l.map Entry.symbol).Nodup) : ((l.take n).map Entry.symbol).Nodup := by
  rw [List.map_take]
  exact h.sublist (List.take_sublist n _)

/-- The backfilled list keeps symbols pairwise distinct. -/
theorem backfill_symbols_nodup (all wl : List Entry) (cap : Nat)
    (hall : (all.map Entry.symbol).Nodup) (hwl : (wl.map Entry.symbol).Nodup) :
    ((backfill all wl cap).map Entry.symbol).Nodup := by
  rw [backfill_char all wl cap hwl, List.map_append, List.nodup_append]
  refine ⟨hall, ?_, ?_⟩
  · have hsub : List.Sublist
        ((wl.filter (candidate (all.map Entry.symbol))).take (cap - all.length)) wl :=
      (List.take_sublist _ _).trans (List.filter_sublist _)
    exact hwl.sublist (hsub.map Entry.symbol)
  · intro x hx1 hx2
    rcases List.mem_map.mp hx2 with ⟨e, he, rfl⟩
    have he2 : e ∈ wl.filter (candidate (all.map Entry.symbol)) :=
      List.mem_of_mem_take he
    have hcand := of_decide_eq_true (List.mem_filter.mp he2).2
    exact hcand (Or.inr hx1)

/-- C1: in the result of get_market_overview, each of the five lists
contains no two entries with the same symbol, for every watchlist,
every top_n and every behavior of the data-fetcher oracles. -/
theorem C1_overview_dedup (watchlist : List WItem) (top_n : Nat)
    (info : String → StockInfo) (weekly : String → Option (List Rat))
    (movers : String → Option (List MoverRow)) :
    (((get_market_overview watchlist top_n info weekly movers).all.map
        Entry.symbol).Nodup) ∧
    (((get_market_overview watchlist top_n info weekly movers).gainers.map
        Entry.symbol).Nodup) ∧
    (((get_market_overview watchlist top_n info weekly movers).losers.map
        Entry.symbol).Nodup) ∧
    (((get_market_overview watchlist top_n info weekly movers).most_viewed.map
        Entry.symbol).Nodup) ∧
    (((get_market_overview watchlist top_n info weekly movers).most_active.map
        Entry.symbol).Nodup) := by
  obtain ⟨⟨hwWF, hvWF, hgWF, hlWF, haWF⟩, _⟩ :=
    buildBuckets_props watchlist info weekly movers top_n
  unfold get_market_overview
  dsimp only
  refine ⟨?_, ?_, ?_, ?_, ?_⟩
  · apply take_symbols_nodup
    apply backfill_symbols_nodup
    · split_ifs
      · exact (merge_unique_WF _).1
      · exact (merge_unique_WF _).1
    · exact (sortBucketDesc_WF keyChange _ hwWF).1
  · exact take_symbols_nodup _ _ (sortBucketDesc_WF keyChange _ hgWF).1
  · exact take_symbols_nodup _ _ (sortBucketAsc_WF keyChange _ hlWF).1
  · split_ifs
    · exact take_symbols_nodup _ _ (sortBucketDesc_WF keyChange _ hwWF).1
    · exact take_symbols_nodup _ _ (sortBucketDesc_WF keyVolume _ hvWF).1
  · exact take_symbols_nodup _ _ (sortBucketDesc_WF keyVolume _ haWF).1

/-- Unfolding equation for the descending sort. -/
theorem sortBucketDesc_eq (key : Entry → Rat) (l : List Entry) :
    sortBucketDesc key l = stableSort (fun y x => decide (key y > key x)) l := rfl

/-- merge_unique of a single well-formed bucket is the identity. -/
theorem merge_unique_single (l : List Entry) (h : BucketWF l) : merge_unique [l] = l := by
  unfold merge_unique
  have hfl : ([l] : List (List Entry)).flatten = l := by simp
  rw [hfl, mergeUniqueAux_id l [] [] h.1 h.2 (by simp)]
  simp

/-- C7 counterexample: with every mover fetch failing and a watchlist
of A (plus one percent) before B (plus two percent), the most_viewed
fallback presents B before A, the descending change order, not the
original watchlist order A before B as the claim states. -/
theorem C7_counterexample_fallback_not_watchlist_order :
    (get_market_overview cexWatch 10 cexInfo cexWeekly cexMovers).most_viewed.map
        Entry.symbol = ["B", "A"] ∧
    cexWatch.filterMap WItem.symbol = ["A", "B"] ∧
    (["B", "A"] : List String) ≠ ["A", "B"] := by
  refine ⟨by decide, by decide, by decide⟩

/-- C7 amended: the backfill does append watchlist entries not already
present in the original watchlist order, up to the 2 times top_n cap
(the candidates all carry a zero sort key, and the stable sort keeps
their mutual order), but the most_viewed fallback used when the viewed
bucket is empty presents the watchlist entries sorted by descending
change_percent, not in original watchlist order. -/
theorem C7_amended_fallback_order (watchlist : List WItem) (top_n : Nat)
    (info : String → StockInfo) (weekly : String → Option (List Rat))
    (movers : String → Option (List MoverRow)) :
    let b := buildBuckets watchlist info weekly movers top_n
    let merged := merge_unique [sortBucketDesc keyChange b.gainers,
      sortBucketAsc keyChange b.losers, sortBucketDesc keyVolume b.active,
      sortBucketDesc keyVolume b.viewed]
    let r := get_market_overview watchlist top_n info weekly movers
    (r.all = (merged ++ (b.watchlist.filter
        (candidate (merged.map Entry.symbol))).take (top_n * 2 - merged.length)).take
        (top_n * 2)) ∧
    (b.viewed = [] →
      r.most_viewed = (sortBucketDesc keyChange b.watchlist).take top_n ∧
      r.most_viewed.Pairwise (fun a b => keyChange b ≤ keyChange a)) := by
  intro b merged r
  obtain ⟨⟨hwWF, hvWF, hgWF, hlWF, haWF⟩, hrouted⟩ :=
    buildBuckets_props watchlist info weekly movers top_n
  have hwS : BucketWF (sortBucketDesc keyChange b.watchlist) :=
    sortBucketDesc_WF keyChange _ hwWF
  have hflmem : ∀ s : String,
      s ∈ (sortBucketDesc keyChange b.gainers).map Entry.symbol ∨
        s ∈ (sortBucketAsc keyChange b.losers).map Entry.symbol →
      s ∈ ([sortBucketDesc keyChange b.gainers, sortBucketAsc keyChange b.losers,
        sortBucketDesc keyVolume b.active,
        sortBucketDesc keyVolume b.viewed] : List (List Entry)).flatten.map
          Entry.symbol := by
    intro s hs
    simp only [List.flatten_cons, List.flatten_nil, List.append_nil, List.map_append,
      List.mem_append]
    tauto
  have hK1 : ∀ e ∈ b.watchlist, candidate (merged.map Entry.symbol) e = true →
      keyChange e = 0 := by
    intro e he hc
    by_contra hkey
    have hcand := of_decide_eq_true hc
    push_neg at hcand
    obtain ⟨hne, hnotin⟩ := hcand
    apply hnotin
    apply merge_unique_covers _ _ hne
    apply hflmem
    rcases hrouted e he hkey with hg | hl
    · exact Or.inl
        ((((stableSort_perm _ b.gainers).map Entry.symbol).mem_iff).mpr hg)
    · exact Or.inr
        ((((stableSort_perm _ b.losers).map Entry.symbol).mem_iff).mpr hl)
  have hK2 : (sortBucketDesc keyChange b.watchlist).filter
      (candidate (merged.map Entry.symbol)) =
      b.watchlist.filter (candidate (merged.map Entry.symbol)) := by
    rw [sortBucketDesc_eq]
    apply filter_stableSort
    intro a ha b2 hb2 hpa hpb
    have h0a := hK1 a ha hpa
    have h0b := hK1 b2 hb2 hpb
    simp [h0a, h0b]
  have hall : r.all = (backfill
      (if merged = [] then merge_unique [sortBucketDesc keyChange b.watchlist] else merged)
      (sortBucketDesc keyChange b.watchlist) (top_n * 2)).take (top_n * 2) := rfl
  constructor
  · by_cases hM : merged = []
    · have hgnil : b.gainers = [] := by
        rw [List.eq_nil_iff_forall_not_mem]
        intro e he
        have hne := hgWF.2 e he
        have hmm : e.symbol ∈ merged.map Entry.symbol := by
          apply merge_unique_covers _ _ hne
          apply hflmem
          exact Or.inl ((((stableSort_perm _ b.gainers).map Entry.symbol).mem_iff).mpr
            (List.mem_map_of_mem Entry.symbol he))
        rw [hM] at hmm
        simp at hmm
      have hlnil : b.losers = [] := by
        rw [List.eq_nil_iff_forall_not_mem]
        intro e he
        have hne := hlWF.2 e he
        have hmm : e.symbol ∈ merged.map Entry.symbol := by
          apply merge_unique_covers _ _ hne
          apply hflmem
          exact Or.inr ((((stableSort_perm _ b.losers).map Entry.symbol).mem_iff).mpr
            (List.mem_map_of_mem Entry.symbol he))
        rw [hM] at hmm
        simp at hmm
      have hkeys : ∀ e ∈ b.watchlist, keyChange e = 0 := by
        intro e he
        by_contra hkey
        rcases hrouted e he hkey with hg | hl
        · rw [hgnil] at hg
          simp at hg
        · rw [hlnil] at hl
          simp at hl
      have hws_eq : sortBucketDesc keyChange b.watchlist = b.watchlist := by
        rw [sortBucketDesc_eq]
        apply stableSort_eq_self
        intro a ha b2 hb2
        simp [hkeys a ha, hkeys b2 hb2]
      rw [hall, if_pos hM, hws_eq, merge_unique_single b.watchlist hwWF,
        backfill_char _ _ _ hwWF.1, hM]
      have hfilnil : b.watchlist.filter
          (candidate (b.watchlist.map Entry.symbol)) = [] := by
        rw [List.filter_eq_nil_iff]
        intro e he
        rw [candidate]
        simp only [decide_eq_true_eq]
        intro hcontra
        exact hcontra (Or.inr (List.mem_map_of_mem Entry.symbol he))
      have hfilself : b.watchlist.filter (candidate ([] : List String)) = b.watchlist := by
        rw [List.filter_eq_self]
        intro e he
        rw [candidate]
        simp only [decide_eq_true_eq, List.not_mem_nil, or_false]
        exact hwWF.2 e he
      rw [hfilnil]
      simp only [List.map_nil, List.length_nil]
      rw [hfilself]
      simp [List.take_take]
    · rw [hall, if_neg hM, backfill_char _ _ _ hwS.1, hK2]
  · intro hv
    have hvS : sortBucketDesc keyVolume b.viewed = [] := by
      rw [hv]
      rfl
    have hmv : r.most_viewed =
        (if sortBucketDesc keyVolume b.viewed = [] then
          (sortBucketDesc keyChange b.watchlist).take top_n
        else (sortBucketDesc keyVolume b.viewed).take top_n) := rfl
    rw [hmv, if_pos hvS]
    refine ⟨rfl, ?_⟩
    have hpw := pairwise_stableSort (fun y x => decide (keyChange y > keyChange x))
      b.watchlist
      (fun a b2 h => decide_eq_false (lt_asymm (of_decide_eq_true h)))
      (fun a b2 c h1 h2 => decide_eq_false
        (not_lt.mpr (le_trans (not_lt.mp (of_decide_eq_false h2))
          (not_lt.mp (of_decide_eq_false h1)))))
    have hpw2 : (stableSort (fun y x => decide (keyChange y > keyChange x))
        b.watchlist).Pairwise (fun a b2 => keyChange b2 ≤ keyChange a) :=
      hpw.imp (fun h => not_lt.mp (of_decide_eq_false h))
    rw [sortBucketDesc_eq]
    exact hpw2.sublist (List.take_sublist _ _)

/-- C7 amended witness: on the concrete failed-movers run the fallback
equals the change-descending truncation and is sorted. -/
theorem C7_amended_fallback_order_witness :
    (get_market_overview cexWatch 10 cexInfo cexWeekly cexMovers).most_viewed =
      (sortBucketDesc keyChange
        (buildBuckets cexWatch cexInfo cexWeekly cexMovers 10).watchlist).take 10 ∧
    (get_market_overview cexWatch 10 cexInfo cexWeekly cexMovers).most_viewed.Pairwise
      (fun a b => keyChange b ≤ keyChange a) := by
  exact (C7_amended_fallback_order cexWatch 10 cexInfo cexWeekly cexMovers).2 (by decide)

/-- C2: should_regenerate returns false whenever in_progress is true;
returns true when no generation has ever succeeded; returns true when
the last recorded period differs from the requested one; and otherwise
returns true exactly when the elapsed time since the last success
exceeds the 15-minute refresh interval. -/
theorem C2_should_regenerate_policy (s : GenState) (now : Int) (req : String) :
    (s.in_progress = true → should_regenerate now s req = false) ∧
    (s.in_progress = false → s.timestamp = none → should_regenerate now s req = true) ∧
    (∀ t p, s.in_progress = false → s.timestamp = some t → s.period = some p →
      p ≠ "" → p ≠ req → should_regenerate now s req = true) ∧
    (∀ t, s.in_progress = false → s.timestamp = some t → s.period = some req →
      (should_regenerate now s req = true ↔ now - t > REFRESH_INTERVAL)) := by
  obtain ⟨ts, pd, ip⟩ := s
  refine ⟨?_, ?_, ?_, ?_⟩
  · intro h; subst h; simp [should_regenerate]
  · intro h ht; subst h; subst ht; simp [should_regenerate]
  · intro t p h ht hp hne hreq; subst h; subst ht; subst hp
    simp [should_regenerate, hne, hreq]
  · intro t h ht hp; subst h; subst ht; subst hp
    by_cases hreq : req = ""
    · subst hreq; simp [should_regenerate]
    · simp [should_regenerate, hreq]

/-- C2 witness: a concrete idle state whose last success is older than
the refresh interval and matches the requested period regenerates. -/
theorem C2_should_regenerate_policy_witness :
    should_regenerate 1000 ⟨some 0, some "6mo", false⟩ "6mo" = true :=
  ((C2_should_regenerate_policy ⟨some 0, some "6mo", false⟩ 1000 "6mo").2.2.2
    0 rfl rfl rfl).mpr (by decide)

/-- C3: the claim says numeric normalization never raises and maps
empty and whitespace-only strings to absent.  The code does map
whitespace-only strings, the placeholder and None to absent, but an
empty string (or a string of commas) reaches cleaned[-1] and raises an
IndexError, so the code contradicts the stated failure policy. -/
theorem C3_normalize_number_empty_string_raises :
    normalize_number (.vStr "") = .error .indexError ∧
    normalize_number (.vStr ",") = .error .indexError ∧
    normalize_number (.vStr "   ") = .ok none ∧
    normalize_number (.vStr "--") = .ok none ∧
    normalize_number .vNone = .ok none :=
  ⟨rfl, rfl, rfl, rfl, rfl⟩

/-- C6: with force false and the market-hours predicate reporting
closed, maybe_generate returns absent without invoking the builder and
leaves the state untouched; with force true the builder is invoked
regardless of market hours and regardless of the staleness state. -/
theorem C6_market_gate_and_force {E : Type} (s : GenState) (period : String)
    (now1 now2 : Int) (builder : Except E Report) :
    maybe_generate s period false false now1 now2 builder =
      ⟨.ok none, s, false⟩ ∧
    (∀ mo : Bool, (maybe_generate s period true mo now1 now2 builder).builder_invoked = true) := by
  constructor
  · rfl
  · intro mo
    cases builder <;> rfl

/-- C4: when the builder raises, both maybe_generate and
process_portfolio clear in_progress through their finally blocks,
leave the recorded timestamp and period unchanged, and surface the
failure to the caller (process_portfolio as an HTTP 500). -/
theorem C4_builder_failure_semantics {E : Type} (s : GenState) (period : String)
    (force market_open : Bool) (now1 now2 : Int) (req_period : Option String)
    (req_symbols : Option (List String)) (config_symbols : List String)
    (disk : Option DiskData) (now_gen : Int) (e : E) :
    ((maybe_generate s period force market_open now1 now2 (.error e)).builder_invoked = true →
      (maybe_generate s period force market_open now1 now2 (.error e)).result = .error e ∧
      (maybe_generate s period force market_open now1 now2 (.error e)).state.in_progress = false ∧
      (maybe_generate s period force market_open now1 now2 (.error e)).state.timestamp
        = s.timestamp ∧
      (maybe_generate s period force market_open now1 now2 (.error e)).state.period
        = s.period) ∧
    ((process_portfolio s req_period force req_symbols config_symbols disk market_open
        now1 now2 now_gen (.error e)).builder_invoked = true →
      (process_portfolio s req_period force req_symbols config_symbols disk market_open
        now1 now2 now_gen (.error e)).result = .error (500, e) ∧
      (process_portfolio s req_period force req_symbols config_symbols disk market_open
        now1 now2 now_gen (.error e)).state.in_progress = false ∧
      (process_portfolio s req_period force req_symbols config_symbols disk market_open
        now1 now2 now_gen (.error e)).state.timestamp = s.timestamp ∧
      (process_portfolio s req_period force req_symbols config_symbols disk market_open
        now1 now2 now_gen (.error e)).state.period = s.period) := by
  constructor
  · intro hinv
    unfold maybe_generate at hinv ⊢
    split_ifs at hinv ⊢ <;> exact ⟨rfl, rfl, rfl, rfl⟩
  · intro hinv
    unfold process_portfolio at hinv ⊢
    cases disk <;> dsimp only at hinv ⊢ <;> split_ifs at hinv ⊢ <;>
      exact ⟨rfl, rfl, rfl, rfl⟩

/-- C4 witness: a forced call with a failing builder surfaces the
error, clears in_progress and preserves the recorded state. -/
theorem C4_builder_failure_semantics_witness :
    (maybe_generate (E := Unit) ⟨some 7, some "6mo", false⟩ "6mo" true true 0 0
      (.error ())).result = .error () ∧
    (maybe_generate (E := Unit) ⟨some 7, some "6mo", false⟩ "6mo" true true 0 0
      (.error ())).state.timestamp = some 7 ∧
    (process_portfolio (E := Unit) ⟨some 7, some "6mo", false⟩ none true none []
      none true 0 0 0 (.error ())).result = .error (500, ()) ∧
    (process_portfolio (E := Unit) ⟨some 7, some "6mo", false⟩ none true none []
      none true 0 0 0 (.error ())).state.period = some "6mo" := by
  have h := C4_builder_failure_semantics (E := Unit) ⟨some 7, some "6mo", false⟩ "6mo"
    true true 0 0 none none [] none 0 ()
  have h1 := h.1 rfl
  have h2 := h.2 rfl
  exact ⟨h1.1, h1.2.2.1, h2.1, h2.2.2.2⟩

/-- C5: the upsert merge keeps the merged entry in the bucket and
combines fields by preferring incoming non-null values and falling
back to existing ones; in particular merging price-absent volume-5
with incoming price-10 volume-absent yields price 10 and volume 5. -/
theorem C5_upsert_merge_precedence :
    (∀ (bucket : List Entry) (symbol : String) (existing incoming : Entry),
      existing ∈ bucket → existing.symbol = symbol →
      mergeEntry existing incoming ∈ upsertList bucket symbol incoming) ∧
    (∀ existing incoming : Entry,
      (mergeEntry existing incoming).symbol = incoming.symbol ∧
      (∀ v, incoming.name = some v → (mergeEntry existing incoming).name = some v) ∧
      (incoming.name = none → (mergeEntry existing incoming).name = existing.name) ∧
      (∀ v, incoming.exchange = some v → (mergeEntry existing incoming).exchange = some v) ∧
      (incoming.exchange = none →
        (mergeEntry existing incoming).exchange = existing.exchange) ∧
      (∀ v, incoming.current_price = some v →
        (mergeEntry existing incoming).current_price = some v) ∧
      (incoming.current_price = none →
        (mergeEntry existing incoming).current_price = existing.current_price) ∧
      (∀ v, incoming.change_percent = some v →
        (mergeEntry existing incoming).change_percent = some v) ∧
      (incoming.change_percent = none →
        (mergeEntry existing incoming).change_percent = existing.change_percent) ∧
      (∀ v, incoming.market_cap = some v →
        (mergeEntry existing incoming).market_cap = some v) ∧
      (incoming.market_cap = none →
        (mergeEntry existing incoming).market_cap = existing.market_cap) ∧
      (∀ v, incoming.volume = some v → (mergeEntry existing incoming).volume = some v) ∧
      (incoming.volume = none → (mergeEntry existing incoming).volume = existing.volume) ∧
      (∀ v, incoming.logo_url = some v →
        (mergeEntry existing incoming).logo_url = some v) ∧
      (incoming.logo_url = none →
        (mergeEntry existing incoming).logo_url = existing.logo_url) ∧
      (∀ v, incoming.weekly_performance = some v →
        (mergeEntry existing incoming).weekly_performance = some v) ∧
      (incoming.weekly_performance = none →
        (mergeEntry existing incoming).weekly_performance = existing.weekly_performance) ∧
      (∀ v, incoming.source = some v → (mergeEntry existing incoming).source = some v) ∧
      (incoming.source = none → (mergeEntry existing incoming).source = existing.source)) ∧
    (upsertList [⟨"AAPL", none, none, none, none, none, some 5, none, none, none⟩] "AAPL"
        ⟨"AAPL", none, none, some 10, none, none, none, none, none, none⟩ =
      [⟨"AAPL", none, none, some 10, none, none, some 5, none, none, none⟩]) := by
  refine ⟨?_, ?_, by decide⟩
  · intro bucket symbol existing incoming hmem hsym
    have hany : bucket.any (fun e => e.symbol = symbol) = true := by
      rw [List.any_eq_true]
      exact ⟨existing, hmem, by simp [hsym]⟩
    simp only [upsertList, hany, if_true]
    rw [List.mem_map]
    exact ⟨existing, hmem, by simp [hsym]⟩
  · intro existing incoming
    refine ⟨rfl, ?_⟩
    repeat' constructor
    all_goals
      first
      | (intro v h; simp [mergeEntry, pyMergeField, h])
      | (intro h; simp [mergeEntry, pyMergeField, h])

/-- C5 witness: the membership clause applied to a concrete bucket
holding the symbol. -/
theorem C5_upsert_merge_precedence_witness :
    mergeEntry ⟨"AAPL", none, none, none, none, none, some 5, none, none, none⟩
        ⟨"AAPL", none, none, some 10, none, none, none, none, none, none⟩ ∈
      upsertList [⟨"AAPL", none, none, none, none, none, some 5, none, none, none⟩] "AAPL"
        ⟨"AAPL", none, none, some 10, none, none, none, none, none, none⟩ ∧
    (mergeEntry ⟨"AAPL", none, none, none, none, none, some 5, none, none, none⟩
        ⟨"AAPL", none, none, some 10, none, none, none, none, none, none⟩).volume = some 5 := by
  exact ⟨C5_upsert_merge_precedence.1 _ "AAPL" _ _ (List.mem_singleton.mpr rfl) rfl, by decide⟩

/-- List.lookup finds the head entry when the keys agree. -/
theorem lookup_cons_self {α β : Type} [BEq α] [LawfulBEq α] (k : α) (v : β)
    (l : List (α × β)) : ((k, v) :: l).lookup k = some v := by
  simp [List.lookup]

/-- List.lookup skips a head entry with a different key. -/
theorem lookup_cons_ne {α β : Type} [BEq α] [LawfulBEq α] {k k1 : α} (v : β)
    (l : List (α × β)) (h : k ≠ k1) : ((k1, v) :: l).lookup k = l.lookup k := by
  simp [List.lookup, beq_eq_false_iff_ne.mpr h]

/-- Appending distinct strings to one fixed prefix yields distinct
strings. -/
theorem string_append_ne (p s1 s2 : String) (h : s1 ≠ s2) : p ++ s1 ≠ p ++ s2 := by
  intro hc
  apply h
  apply String.ext
  have hdata : (p ++ s1).data = (p ++ s2).data := by rw [hc]
  simpa using hdata

/-- C9 counterexample: the claim says the get_stock_info cache key is
the upper-cased symbol, so a second call differing only in case should
be served from the cache.  The code keys by the verbatim symbol: after
a call for "aapl", the call for "AAPL" misses and fetches afresh. -/
theorem C9_counterexample_info_cache_case_sensitive :
    (get_stock_info
        ((get_stock_info [] "aapl" ⟨"Apple", some 1, some 0, none, none, none, none,
          "USD"⟩).cache)
        "AAPL" ⟨"Apple", some 1, some 0, none, none, none, none, "USD"⟩).fetched = true ∧
    stock_info_cache_key "aapl" ≠ stock_info_cache_key "AAPL" := by
  exact ⟨rfl, by decide⟩

/-- C9 amended: get_weekly_performance keys its cache by the
upper-cased symbol, so calls differing only in case share one entry
and the second returns the memoized value without a fetch; the
get_stock_info cache is keyed by the symbol verbatim, so two distinct
symbol spellings never share an entry and the second call fetches
afresh. -/
theorem C9_amended_cache_keys :
    (∀ (cache : List (String × List Rat)) (s1 s2 : String) (closes : List Rat)
        (f2 : Option (List Rat)),
      pyUpper s1 = pyUpper s2 →
      cache.lookup (weekly_cache_key s1) = none →
      get_weekly_performance (get_weekly_performance cache s1 (some closes)).cache s2 f2 =
        ⟨(get_weekly_performance cache s1 (some closes)).result,
         (get_weekly_performance cache s1 (some closes)).cache, false⟩) ∧
    (∀ (s1 s2 : String) (cache : List (String × StockInfo)) (f1 f2 : StockFetch),
      s1 ≠ s2 →
      cache.lookup (stock_info_cache_key s2) = none →
      (get_stock_info (get_stock_info cache s1 f1).cache s2 f2).fetched = true) := by
  constructor
  · intro cache s1 s2 closes f2 hupper hmiss
    have hkey : weekly_cache_key s2 = weekly_cache_key s1 := by
      simp [weekly_cache_key, hupper]
    simp only [get_weekly_performance, hmiss, hkey, lookup_cons_self]
  · intro s1 s2 cache f1 f2 hne hmiss
    have hkey : stock_info_cache_key s2 ≠ stock_info_cache_key s1 :=
      string_append_ne "stock_info_" s2 s1 (Ne.symm hne)
    simp only [get_stock_info]
    cases hlk : cache.lookup (stock_info_cache_key s1) with
    | some cached =>
      by_cases hsy : cached.symbol = s1
      · simp only [hsy, if_true, hmiss]
      · simp only [hsy, if_false]
        rw [lookup_cons_ne _ _ hkey, hmiss]
    | none =>
      rw [lookup_cons_ne _ _ hkey, hmiss]

/-- C9 amended witness: a lower-case then upper-case pair of calls
shares the weekly cache entry, and the verbatim-keyed info cache
fetches afresh for the other spelling. -/
theorem C9_amended_cache_keys_witness :
    get_weekly_performance (get_weekly_performance [] "aapl" (some [1, 2])).cache "AAPL" none =
      ⟨(get_weekly_performance [] "aapl" (some [1, 2])).result,
       (get_weekly_performance [] "aapl" (some [1, 2])).cache, false⟩ ∧
    (get_stock_info
        (get_stock_info [] "aapl" ⟨"Apple", some 1, some 0, none, none, none, none,
          "USD"⟩).cache
        "AAPL" ⟨"Apple", some 1, some 0, none, none, none, none, "USD"⟩).fetched = true := by
  constructor
  · exact C9_amended_cache_keys.1 [] "aapl" "AAPL" [1, 2] none (by decide) rfl
  · exact C9_amended_cache_keys.2 "aapl" "AAPL" [] _ _ (by decide) rfl

/-- C10: the four mover tables share one cache timestamp.  A call that
performs a fresh successful fetch for category c at time now1 stamps
the whole cache; any category x present in the resulting cache is then
served as a cache hit, without refetching, whenever the next call comes
within the TTL of now1, with no condition on when x itself was last
fetched. -/
theorem C10_shared_movers_timestamp (st : MoversState) (c x : String)
    (now1 now2 : Int) (fetched fx : Option PTable) (t tx : PTable) (st1 : MoversState) :
    get_market_movers st c now1 fetched = .ok ⟨some t, st1, false⟩ →
    st1.cache.lookup x = some tx →
    now2 - now1 < MOVERS_TTL →
    get_market_movers st1 x now2 fx = .ok ⟨some tx, st1, true⟩ := by
  intro h1 hx helapsed
  have htime : st1.cacheTime = some now1 := by
    unfold get_market_movers at h1
    split at h1
    · injection h1 with h1
      injection h1 with hres hst hused
      cases hused
    · cases fetched with
      | none =>
        injection h1 with h1
        injection h1 with hres
        cases hres
      | some raw =>
        dsimp only at h1
        split at h1
        · cases hnorm : normalizeMoverTable (renameTable raw) with
          | ok t2 =>
            rw [hnorm] at h1
            injection h1 with h1
            injection h1 with hres hst hused
            rw [← hst]
          | error ex =>
            rw [hnorm] at h1
            cases h1
        · injection h1 with h1
          injection h1 with hres
          cases hres
  have hfresh : should_use_cached_market_movers now2 st1 = true := by
    rw [should_use_cached_market_movers, htime]
    simpa using helapsed
  unfold get_market_movers
  rw [if_pos]
  · rw [hx]
  · exact ⟨hfresh, by rw [hx]; rfl⟩

/-- C10 witness: a stale cache holding an active table is refreshed by
a gainers fetch at time 10000; a call for active at 10100 is then a
pure cache hit. -/
theorem C10_shared_movers_timestamp_witness :
    get_market_movers
      ⟨[("gainers", ⟨[("symbol", [])]⟩), ("active", ⟨[]⟩)], some 10000⟩
      "active" 10100 none =
      .ok ⟨some ⟨[]⟩, ⟨[("gainers", ⟨[("symbol", [])]⟩), ("active", ⟨[]⟩)], some 10000⟩,
           true⟩ := by
  exact C10_shared_movers_timestamp ⟨[("active", ⟨[]⟩)], some 0⟩ "gainers" "active"
    10000 10100 (some ⟨[("Symbol", [])]⟩) none ⟨[("symbol", [])]⟩ ⟨[]⟩
    ⟨[("gainers", ⟨[("symbol", [])]⟩), ("active", ⟨[]⟩)], some 10000⟩
    rfl rfl (by decide)

/-- C8: the concrete normalization equations of the spec hold:
"1.2B" parses to 1.2e9, "--" to absent, "12,345.6" to 12345.6 and the
percent string "+3.4%" to 3.4. -/
theorem C8_normalization_equations :
    normalize_number (.vStr "1.2B") = .ok (some 1.2e9) ∧
    normalize_number (.vStr "--") = .ok none ∧
    normalize_number (.vStr "12,345.6") = .ok (some 12345.6) ∧
    normalize_percent (.vStr "+3.4%") = some 3.4 := by
  refine ⟨?_, rfl, ?_, ?_⟩
  · simp [normalize_number, stripCommas, pyFloatChars, stripWs, parseMantissa, parseExpPart,
        suffixMultiplier, digitsVal]
    norm_num [Rat.mkRat_eq_div]
  · simp [normalize_number, stripCommas, pyFloatChars, stripWs, parseMantissa, parseExpPart,
        suffixMultiplier, digitsVal]
    norm_num [Rat.mkRat_eq_div]
  · simp [normalize_percent, stripCommas, numSearch, digitsMatch, pyFloatChars, stripWs,
        parseMantissa, parseExpPart, digitsVal]
    norm_num [Rat.mkRat_eq_div]

end PM
